import Mathlib

/-!
Shallow embedding of `src/ringbuffer/buffer.c`, a fixed-capacity circular
byte buffer with monotonically increasing 32-bit logical cursors.

Cursors (`tail` = write cursor, `head` = read cursor) are modelled as
natural numbers kept below `2^32`; every C `uint32_t` operation is made
explicit with `% U32`.  The backing storage `buf` is a total function
`Nat → Nat` giving the byte at each physical index; only indices below
`size` correspond to real storage, and reads beyond them model the
out-of-bounds reads the C code can perform.
-/

namespace RingBuffer

/-- Modulus of the C `uint32_t` arithmetic: `2^32`. -/
def U32 : Nat := 4294967296

theorem U32_eq_pow : U32 = 2 ^ 32 := by norm_num [U32]

/-- Unsigned 32-bit subtraction `a - b` (wraparound semantics), for `a < U32`. -/
def u32sub (a b : Nat) : Nat := (a + U32 - b % U32) % U32

/-- The `ringbuffer_s` struct: `size` (capacity), `tail` (write cursor),
`head` (read cursor), `buf` (storage contents by physical index). -/
structure Buffer where
  size : Nat
  tail : Nat
  head : Nat
  buf : Nat → Nat

/-- C `is_power_of_two`: `num >= 2 && (num & (num-1)) == 0`. -/
def is_power_of_two (num : Nat) : Bool :=
  if num < 2 then false else (num &&& (num - 1)) == 0

/-- Fuel-indexed bit-length loop of `roundup_power_of_two`
(`for (; num != 0; i++) num >>= 1`); `fuel ≥ num` makes it total. -/
def bitsLenAux : Nat → Nat → Nat
  | 0, _ => 0
  | fuel + 1, n => if n = 0 then 0 else bitsLenAux fuel (n / 2) + 1

/-- Number of iterations of the shift loop in `roundup_power_of_two`:
the binary bit length of `n`. -/
def bitsLen (n : Nat) : Nat := bitsLenAux n n

/-- C `roundup_power_of_two`: `0` maps to `2`; otherwise `1U << i` where `i`
is the bit length of `num`.  The shift is modelled as `2 ^ i`, which agrees
with the C code whenever `i ≤ 31`, i.e. `num < 2^31` (for larger `num` the
C shift `1U << 32` is undefined behaviour). -/
def roundup_power_of_two (num : Nat) : Nat :=
  if num = 0 then 2 else 2 ^ bitsLen num

/-- Capacity normalization performed by `buffer_new`:
`if (!is_power_of_two(sz)) sz = roundup_power_of_two(sz);`. -/
def buffer_new_size (sz : Nat) : Nat :=
  if is_power_of_two sz then sz else roundup_power_of_two sz

/-- C `buffer_new`: normalized capacity, both cursors `0`, freshly
allocated storage (contents modelled as zeros). -/
def buffer_new (sz : Nat) : Buffer :=
  { size := buffer_new_size sz, tail := 0, head := 0, buf := fun _ => 0 }

/-- C `rb_isempty`: `head == tail`. -/
def rb_isempty (r : Buffer) : Bool := r.head == r.tail

/-- C `rb_isfull`: `size == tail - head` (unsigned subtraction). -/
def rb_isfull (r : Buffer) : Bool := r.size == u32sub r.tail r.head

/-- C `rb_len`: `tail - head` (unsigned subtraction). -/
def rb_len (r : Buffer) : Nat := u32sub r.tail r.head

/-- C `rb_remain`: `size - tail + head`, evaluated left to right in
`uint32_t` arithmetic. -/
def rb_remain (r : Buffer) : Nat := (u32sub r.size r.tail + r.head) % U32

/-- C `buffer_add`: returns `-1` (buffer unchanged) when `sz > rb_remain`,
else copies `i = min(sz, size - (tail & (size-1)))` bytes at the masked
write position, the remaining `sz - i` bytes at index `0`, and advances
`tail` by `sz`. -/
def buffer_add (r : Buffer) (data : Nat → Nat) (sz : Nat) : Int × Buffer :=
  if sz > rb_remain r then (-1, r)
  else
    let tpos := r.tail &&& (r.size - 1)
    let i := min sz (r.size - tpos)
    let buf1 : Nat → Nat := fun idx =>
      if tpos ≤ idx ∧ idx < tpos + i then data (idx - tpos) else r.buf idx
    let buf2 : Nat → Nat := fun idx =>
      if idx < sz - i then data (i + idx) else buf1 idx
    (0, { r with buf := buf2, tail := (r.tail + sz) % U32 })

/-- C `buffer_remove`: asserts the buffer is non-empty (modelled as `none`),
clamps `sz` to `tail - head`, copies `i = min(sz, size - (head & (size-1)))`
bytes from the masked read position and the remaining `sz - i` bytes from
index `0`, advances `head`, and returns the copied bytes and their count. -/
def buffer_remove (r : Buffer) (sz : Nat) : Option (Buffer × List Nat × Nat) :=
  if rb_isempty r then none
  else
    let sz' := min sz (u32sub r.tail r.head)
    let hpos := r.head &&& (r.size - 1)
    let i := min sz' (r.size - hpos)
    let out := ((List.range i).map fun j => r.buf (hpos + j))
      ++ ((List.range (sz' - i)).map fun j => r.buf j)
    some ({ r with head := (r.head + sz') % U32 }, out, sz')

/-- C `buffer_drain`: clamps `sz` to `rb_len`, advances `head` by the
clamped amount and returns it; no bytes are copied. -/
def buffer_drain (r : Buffer) (sz : Nat) : Buffer × Nat :=
  let sz' := if sz > rb_len r then rb_len r else sz
  ({ r with head := (r.head + sz') % U32 }, sz')

/-- C `memcmp(a + apos, b + bpos, n) == 0`: byte-wise equality of two
ranges of length `n`. -/
def memcmpEq (a : Nat → Nat) (apos : Nat) (b : Nat → Nat) (bpos : Nat) (n : Nat) : Bool :=
  (List.range n).all fun j => a (apos + j) == b (bpos + j)

/-- Scan loop of C `buffer_search`.  `bound` is the already-computed
`rb_len(r) - seplen` in `uint32_t` arithmetic; the loop continues while
`(uint32_t)i <= bound`.  `fuel` bounds the recursion; `buffer_search`
supplies `U32`, which covers every iteration the loop condition permits,
so the `none` fuel-exhaustion result is reached only if the C loop would
run more than `2^32` iterations. -/
def searchLoop (r : Buffer) (sep : Nat → Nat) (seplen : Nat) (bound : Nat) :
    Nat → Nat → Option Nat
  | 0, _ => none
  | fuel + 1, i =>
    if i % U32 > bound then some 0
    else
      let pos := ((r.head + i) % U32) &&& (r.size - 1)
      if pos + seplen > r.size then
        if memcmpEq r.buf pos sep 0 (r.size - pos) = false then some 0
        else if memcmpEq r.buf 0 sep (r.size - pos) (pos + seplen - r.size) = true then
          some (i + seplen)
        else if memcmpEq r.buf pos sep 0 seplen = true then some (i + seplen)
        else searchLoop r sep seplen bound fuel (i + 1)
      else if memcmpEq r.buf pos sep 0 seplen = true then some (i + seplen)
      else searchLoop r sep seplen bound fuel (i + 1)

/-- C `buffer_search`: scans offsets `i` with `i <= rb_len(r) - seplen`
(unsigned subtraction, which underflows when `seplen > rb_len`). -/
def buffer_search (r : Buffer) (sep : Nat → Nat) (seplen : Nat) : Option Nat :=
  searchLoop r sep seplen (u32sub (rb_len r) seplen) U32 0

/-- C `buffer_len`: public wrapper around `rb_len`. -/
def buffer_len (r : Buffer) : Nat := rb_len r

/-- C `buffer_write_atmost`: if the data wraps (`wpos < rpos`), copy the
tail run then the head run into a fresh full-size storage, install it and
return a pointer to its start (offset `0`); otherwise return a pointer to
`buf + rpos` with no mutation.  The result is the updated buffer and the
returned pointer's offset into the (possibly new) storage. -/
def buffer_write_atmost (r : Buffer) : Buffer × Nat :=
  let rpos := r.head &&& (r.size - 1)
  let wpos := r.tail &&& (r.size - 1)
  if wpos < rpos then
    let temp : Nat → Nat := fun idx =>
      if idx < r.size - rpos then r.buf (rpos + idx)
      else if idx < r.size - rpos + wpos then r.buf (idx - (r.size - rpos))
      else 0
    ({ r with buf := temp }, 0)
  else (r, rpos)

/-- Well-formedness of a buffer state, as established by `buffer_new` and
preserved by every operation: the capacity is a `uint32_t` power of two
`≥ 2`, the cursors are `uint32_t` values, and at most `size` bytes are
buffered. -/
structure Wf (r : Buffer) : Prop where
  size_pow : ∃ k, 1 ≤ k ∧ k ≤ 31 ∧ r.size = 2 ^ k
  head_lt : r.head < U32
  tail_lt : r.tail < U32
  len_le : rb_len r ≤ r.size

theorem Wf.size_le {r : Buffer} (h : Wf r) : r.size ≤ 2147483648 := by
  obtain ⟨k, hk1, hk31, hs⟩ := h.size_pow
  have : (2 : Nat) ^ k ≤ 2 ^ 31 := Nat.pow_le_pow_right (by norm_num) hk31
  omega

theorem Wf.size_pos {r : Buffer} (h : Wf r) : 2 ≤ r.size := by
  obtain ⟨k, hk1, hk31, hs⟩ := h.size_pow
  have : (2 : Nat) ^ 1 ≤ 2 ^ k := Nat.pow_le_pow_right (by norm_num) hk1
  simpa [hs] using this

theorem Wf.size_dvd {r : Buffer} (h : Wf r) : r.size ∣ U32 := by
  obtain ⟨k, hk1, hk31, hs⟩ := h.size_pow
  rw [hs, U32_eq_pow]
  exact pow_dvd_pow 2 (by omega)

/-- The power-of-two mask in the C code is reduction modulo the capacity. -/
theorem mask_eq {r : Buffer} (h : Wf r) (x : Nat) :
    x &&& (r.size - 1) = x % r.size := by
  obtain ⟨k, hk1, hk31, hs⟩ := h.size_pow
  rw [hs]
  exact Nat.and_pow_two_sub_one_eq_mod x k

theorem mod_U32_mod_size {r : Buffer} (h : Wf r) (x : Nat) :
    x % U32 % r.size = x % r.size :=
  Nat.mod_mod_of_dvd x h.size_dvd

/-- A nonzero natural number has a set bit. -/
theorem exists_testBit_of_ne_zero {a : Nat} (h : a ≠ 0) :
    ∃ i, a.testBit i = true := by
  by_contra hc
  push_neg at hc
  exact h (Nat.eq_of_testBit_eq fun i => by
    simp [Bool.eq_false_iff.mpr (hc i)])

/-- Hard direction of the `is_power_of_two` test: when `n ≥ 1` and
`n & (n-1) == 0`, `n` is a power of two. -/
theorem pow_of_land_pred : ∀ n : Nat, 1 ≤ n → n &&& (n - 1) = 0 → ∃ k, n = 2 ^ k := by
  intro n
  induction n using Nat.strong_induction_on with
  | _ n ih =>
    intro h1 h
    rcases Nat.lt_or_ge n 2 with h2 | h2
    · exact ⟨0, by omega⟩
    rcases Nat.even_or_odd n with ⟨t, ht⟩ | ⟨t, ht⟩
    · -- n = 2 * t with t ≥ 1: reduce to t
      have ht1 : 1 ≤ t := by omega
      have hred : t &&& (t - 1) = 0 := by
        by_contra hne
        obtain ⟨j, hj⟩ := exists_testBit_of_ne_zero hne
        rw [Nat.testBit_land] at hj
        have hj1 : t.testBit j = true := by
          cases h' : t.testBit j <;> simp [h'] at hj ⊢
        have hj2 : (t - 1).testBit j = true := by
          cases h' : (t - 1).testBit j <;> simp [h'] at hj ⊢
        have hb1 : n.testBit (j + 1) = true := by
          rw [Nat.testBit_add_one]
          have : n / 2 = t := by omega
          rw [this]; exact hj1
        have hb2 : (n - 1).testBit (j + 1) = true := by
          rw [Nat.testBit_add_one]
          have : (n - 1) / 2 = t - 1 := by omega
          rw [this]; exact hj2
        have : (n &&& (n - 1)).testBit (j + 1) = true := by
          rw [Nat.testBit_land, hb1, hb2]; rfl
        rw [h, Nat.zero_testBit] at this
        exact Bool.false_ne_true this
      obtain ⟨k, hk⟩ := ih t (by omega) ht1 hred
      exact ⟨k + 1, by rw [ht, hk, Nat.pow_succ]; ring⟩
    · -- n = 2 * t + 1 with t ≥ 1: n & (n-1) cannot be zero
      have ht1 : 1 ≤ t := by omega
      obtain ⟨j, hj⟩ := exists_testBit_of_ne_zero (by omega : t ≠ 0)
      have hb1 : n.testBit (j + 1) = true := by
        rw [Nat.testBit_add_one]
        have : n / 2 = t := by omega
        rw [this]; exact hj
      have hb2 : (n - 1).testBit (j + 1) = true := by
        rw [Nat.testBit_add_one]
        have : (n - 1) / 2 = t := by omega
        rw [this]; exact hj
      have : (n &&& (n - 1)).testBit (j + 1) = true := by
        rw [Nat.testBit_land, hb1, hb2]; rfl
      rw [h, Nat.zero_testBit] at this
      exact absurd this Bool.false_ne_true

/-- Easy direction: a power of two passes the `n & (n-1) == 0` test. -/
theorem land_pred_of_pow (k : Nat) : (2 ^ k) &&& (2 ^ k - 1) = 0 := by
  apply Nat.eq_of_testBit_eq
  intro i
  rw [Nat.testBit_land, Nat.zero_testBit, Nat.testBit_two_pow,
    Nat.testBit_two_pow_sub_one]
  rcases Nat.lt_or_ge i k with h | h
  · simp [Nat.ne_of_gt h]
  · simp [Nat.not_lt.mpr h]

/-- Characterization of the C `is_power_of_two` test. -/
theorem is_power_of_two_iff (n : Nat) :
    is_power_of_two n = true ↔ 2 ≤ n ∧ ∃ k, n = 2 ^ k := by
  unfold is_power_of_two
  rcases Nat.lt_or_ge n 2 with h2 | h2
  · rw [if_pos h2]
    simp only [Bool.false_eq_true, false_iff, not_and]
    intro h
    omega
  · rw [if_neg (Nat.not_lt.mpr h2), beq_iff_eq]
    constructor
    · intro h
      exact ⟨h2, pow_of_land_pred n (by omega) h⟩
    · rintro ⟨-, k, rfl⟩
      exact land_pred_of_pow k

/-- Bit-length bounds for the shift loop: for `1 ≤ n ≤ fuel`,
`2^(bitsLenAux fuel n - 1) ≤ n < 2^(bitsLenAux fuel n)`. -/
theorem bitsLenAux_spec : ∀ fuel n, n ≤ fuel → 1 ≤ n →
    1 ≤ bitsLenAux fuel n ∧
    2 ^ (bitsLenAux fuel n - 1) ≤ n ∧ n < 2 ^ bitsLenAux fuel n := by
  intro fuel
  induction fuel with
  | zero => intro n hle h1; omega
  | succ fuel ih =>
    intro n hle h1
    rw [bitsLenAux, if_neg (by omega : ¬ n = 0)]
    rcases Nat.lt_or_ge n 2 with h2 | h2
    · have hn1 : n = 1 := by omega
      subst hn1
      have : bitsLenAux fuel 0 = 0 := by
        cases fuel <;> simp [bitsLenAux]
      simp [this]
    · have hm1 : 1 ≤ n / 2 := by omega
      have hmle : n / 2 ≤ fuel := by omega
      obtain ⟨hb1, hlow, hhigh⟩ := ih (n / 2) hmle hm1
      refine ⟨by omega, ?_, ?_⟩
      · have : 2 ^ (bitsLenAux fuel (n / 2) + 1 - 1) =
            2 * 2 ^ (bitsLenAux fuel (n / 2) - 1) := by
          rw [Nat.add_sub_cancel]
          calc 2 ^ bitsLenAux fuel (n / 2)
              = 2 ^ (bitsLenAux fuel (n / 2) - 1 + 1) := by rw [Nat.sub_add_cancel hb1]
            _ = 2 * 2 ^ (bitsLenAux fuel (n / 2) - 1) := by rw [Nat.pow_succ]; ring
        rw [this]
        omega
      · have : 2 ^ (bitsLenAux fuel (n / 2) + 1) =
            2 * 2 ^ bitsLenAux fuel (n / 2) := by rw [Nat.pow_succ]; ring
        rw [this]
        omega

/-- Bit-length bounds specialized to `bitsLen`. -/
theorem bitsLen_spec (n : Nat) (h1 : 1 ≤ n) :
    1 ≤ bitsLen n ∧ 2 ^ (bitsLen n - 1) ≤ n ∧ n < 2 ^ bitsLen n :=
  bitsLenAux_spec n n (Nat.le_refl n) h1

/-- Behaviour of `roundup_power_of_two` on every input where the C shift is
defined (`n < 2^31`) and the function is actually reached by `buffer_new`
(`is_power_of_two n = false`): it returns the least power of two that is
at least `n` and at least `2`. -/
theorem roundup_spec (n : Nat) (hlt : n < 2147483648)
    (hnp : is_power_of_two n = false) :
    (∃ k, roundup_power_of_two n = 2 ^ k) ∧
    2 ≤ roundup_power_of_two n ∧
    n ≤ roundup_power_of_two n ∧
    ∀ m, 2 ≤ m → n ≤ m → (∃ k, m = 2 ^ k) → roundup_power_of_two n ≤ m := by
  rcases Nat.eq_zero_or_pos n with hn0 | hn1
  · subst hn0
    have h0 : roundup_power_of_two 0 = 2 := rfl
    rw [h0]
    exact ⟨⟨1, by norm_num⟩, Nat.le_refl 2, by norm_num, fun m hm _ _ => hm⟩
  rw [roundup_power_of_two, if_neg (by omega : ¬ n = 0)]
  obtain ⟨hb1, hlow, hhigh⟩ := bitsLen_spec n hn1
  refine ⟨⟨bitsLen n, rfl⟩, ?_, Nat.le_of_lt hhigh, ?_⟩
  · calc (2 : Nat) = 2 ^ 1 := by norm_num
      _ ≤ 2 ^ bitsLen n := Nat.pow_le_pow_right (by norm_num) hb1
  · intro m h2 hnm ⟨k, hk⟩
    subst hk
    have hk1 : 1 ≤ k := by
      by_contra hc
      have : k = 0 := by omega
      rw [this] at h2; norm_num at h2
    rcases Nat.lt_or_ge n 2 with hsmall | hbig
    · -- n = 1: bitsLen 1 = 1, result 2 ≤ any power ≥ 2
      have hn1' : n = 1 := by omega
      subst hn1'
      have : bitsLen 1 = 1 := by decide
      rw [this]
      exact h2
    · -- n ≥ 2 and not a power of two: 2^(bitsLen n - 1) < n
      have hnotpow : ¬ ∃ j, n = 2 ^ j := by
        intro ⟨j, hj⟩
        have htrue := (is_power_of_two_iff n).mpr ⟨hbig, j, hj⟩
        rw [hnp] at htrue
        exact Bool.false_ne_true htrue
      have hstrict : 2 ^ (bitsLen n - 1) < n := by
        rcases Nat.lt_or_ge (2 ^ (bitsLen n - 1)) n with h | h
        · exact h
        · exact absurd ⟨bitsLen n - 1, by omega⟩ hnotpow
      have : bitsLen n - 1 < k := by
        by_contra hc
        have hkb : k ≤ bitsLen n - 1 := by omega
        have : (2 : Nat) ^ k ≤ 2 ^ (bitsLen n - 1) :=
          Nat.pow_le_pow_right (by norm_num) hkb
        omega
      exact Nat.pow_le_pow_right (by norm_num) (by omega)

/-- Under well-formedness, `rb_len` is the plain difference of the logical
amounts written and read, and `rb_remain` is the free space. -/
theorem rb_remain_eq {r : Buffer} (h : Wf r) : rb_remain r = r.size - rb_len r := by
  have hh := h.head_lt
  have ht := h.tail_lt
  have hl := h.len_le
  have hs := h.size_le
  simp only [rb_remain, rb_len, u32sub, U32] at *
  omega

/-- Datatype-level congruence for buffer records that differ in no field. -/
theorem Buffer.ext_eq {r : Buffer} {s t h : Nat} {b : Nat → Nat}
    (hs : s = r.size) (ht : t = r.tail) (hh : h = r.head) (hb : b = r.buf) :
    Buffer.mk s t h b = r := by
  cases r
  simp_all

/- ------------------------------------------------------------------ -/
/- C7: behaviour of `roundup_power_of_two`                             -/
/- ------------------------------------------------------------------ -/

/-- C7 counterexample: the claim says `round_up_power_of_two(8) = 8`
(smallest power of two `≥ 8`), but the code's shift loop counts all four
bits of `8` and returns `1 << 4 = 16`. -/
theorem c7_counterexample :
    roundup_power_of_two 8 ≠ 8 ∧ roundup_power_of_two 8 = 16 ∧
    roundup_power_of_two 2 ≠ 2 ∧ roundup_power_of_two 2 = 4 := by
  refine ⟨?_, ?_, ?_, ?_⟩ <;> decide

/-- C7 (amended): on every input on which `buffer_new` actually invokes it
(`is_power_of_two n = false`, i.e. `n` is `0`, `1`, or not a power of two)
and on which the C shift is defined (`n < 2^31`), `roundup_power_of_two n`
is the smallest power of two that is `≥ n` and `≥ 2`; on exact powers of
two `≥ 2` it instead returns twice the input. -/
theorem c7_roundup_least_power (n : Nat) (hlt : n < 2147483648)
    (hnp : is_power_of_two n = false) :
    (∃ k, roundup_power_of_two n = 2 ^ k) ∧
    2 ≤ roundup_power_of_two n ∧
    n ≤ roundup_power_of_two n ∧
    ∀ m, 2 ≤ m → n ≤ m → (∃ k, m = 2 ^ k) → roundup_power_of_two n ≤ m :=
  roundup_spec n hlt hnp

/-- Witness for C7 at `n = 5`: the rounded value is a power of two between
`5` and `8`, hence `8`. -/
theorem c7_roundup_least_power_witness :
    2 ≤ roundup_power_of_two 5 ∧ 5 ≤ roundup_power_of_two 5 ∧
    roundup_power_of_two 5 ≤ 8 :=
  ⟨(c7_roundup_least_power 5 (by norm_num) (by decide)).2.1,
   (c7_roundup_least_power 5 (by norm_num) (by decide)).2.2.1,
   (c7_roundup_least_power 5 (by norm_num) (by decide)).2.2.2 8
     (by norm_num) (by norm_num) ⟨3, rfl⟩⟩

/- ------------------------------------------------------------------ -/
/- C8: capacity normalization in `buffer_new`                          -/
/- ------------------------------------------------------------------ -/

/-- C8: `buffer_new` keeps a requested capacity that is already a power of
two `≥ 2` as-is and rounds any other request (below `2^31`, where the C
shift is defined) up to the smallest power of two `≥ 2` that can hold it;
in particular `0 ↦ 2`, `5 ↦ 8`, `8 ↦ 8`. -/
theorem c8_new_capacity :
    (buffer_new 0).size = 2 ∧ (buffer_new 5).size = 8 ∧ (buffer_new 8).size = 8 ∧
    (∀ n, 2 ≤ n → (∃ k, n = 2 ^ k) → buffer_new_size n = n) ∧
    (∀ n, n < 2147483648 → ¬ (2 ≤ n ∧ ∃ k, n = 2 ^ k) →
      (∃ k, buffer_new_size n = 2 ^ k) ∧ 2 ≤ buffer_new_size n ∧
      n ≤ buffer_new_size n ∧
      ∀ m, 2 ≤ m → n ≤ m → (∃ k, m = 2 ^ k) → buffer_new_size n ≤ m) := by
  refine ⟨by decide, by decide, by decide, ?_, ?_⟩
  · intro n h2 hpow
    have ht : is_power_of_two n = true := (is_power_of_two_iff n).mpr ⟨h2, hpow⟩
    rw [buffer_new_size, if_pos ht]
  · intro n hlt hnot
    have hf : is_power_of_two n = false := by
      cases hb : is_power_of_two n
      · rfl
      · exact absurd ((is_power_of_two_iff n).mp hb) hnot
    rw [buffer_new_size, if_neg (by rw [hf]; exact Bool.false_ne_true)]
    exact roundup_spec n hlt hf

theorem six_not_pow : ¬ (2 ≤ 6 ∧ ∃ k, (6 : Nat) = 2 ^ k) := by
  rintro ⟨-, k, hk⟩
  have hk3 : k ≤ 2 := by
    by_contra hgt
    have h8 : (2 : Nat) ^ 3 ≤ 2 ^ k := Nat.pow_le_pow_right (by norm_num) (by omega)
    norm_num at h8
    omega
  interval_cases k <;> norm_num at hk

/-- Witness for C8's quantified parts at `n = 16` (kept as-is) and
`n = 6` (rounded up to `8`). -/
theorem c8_new_capacity_witness :
    buffer_new_size 16 = 16 ∧ buffer_new_size 6 ≤ 8 ∧ 6 ≤ buffer_new_size 6 :=
  ⟨c8_new_capacity.2.2.2.1 16 (by norm_num) ⟨4, rfl⟩,
   (c8_new_capacity.2.2.2.2 6 (by norm_num) six_not_pow).2.2.2 8
     (by norm_num) (by norm_num) ⟨3, rfl⟩,
   (c8_new_capacity.2.2.2.2 6 (by norm_num) six_not_pow).2.2.1⟩

/- ------------------------------------------------------------------ -/
/- C9: `buffer_write_atmost` never rebases the cursors                 -/
/- ------------------------------------------------------------------ -/

/-- C9: `buffer_write_atmost` leaves `head`, `tail` and `size` untouched in
both branches: when the data does not wrap (`wpos ≥ rpos`) it returns the
unchanged buffer together with the pointer offset `rpos`, and when the data
wraps it installs a fresh storage but returns pointer offset `0` with the
same cursors. -/
theorem c9_write_atmost_frame (r : Buffer) :
    (buffer_write_atmost r).1.head = r.head ∧
    (buffer_write_atmost r).1.tail = r.tail ∧
    (buffer_write_atmost r).1.size = r.size ∧
    (¬ r.tail &&& (r.size - 1) < r.head &&& (r.size - 1) →
      buffer_write_atmost r = (r, r.head &&& (r.size - 1))) ∧
    (r.tail &&& (r.size - 1) < r.head &&& (r.size - 1) →
      (buffer_write_atmost r).2 = 0) := by
  unfold buffer_write_atmost
  by_cases h : r.tail &&& (r.size - 1) < r.head &&& (r.size - 1) <;>
    simp [h]

/-- Witness for C9 on a wrapped buffer (`wpos = 1 < 3 = rpos`): cursors
survive the relayout and the returned pointer offset is `0`. -/
theorem c9_write_atmost_frame_witness :
    (buffer_write_atmost (Buffer.mk 4 1 3 fun _ => 7)).1.head = 3 ∧
    (buffer_write_atmost (Buffer.mk 4 1 3 fun _ => 7)).1.tail = 1 ∧
    (buffer_write_atmost (Buffer.mk 4 1 3 fun _ => 7)).2 = 0 :=
  ⟨(c9_write_atmost_frame (Buffer.mk 4 1 3 fun _ => 7)).1,
   (c9_write_atmost_frame (Buffer.mk 4 1 3 fun _ => 7)).2.1,
   (c9_write_atmost_frame (Buffer.mk 4 1 3 fun _ => 7)).2.2.2.2 (by decide)⟩

/- ------------------------------------------------------------------ -/
/- C10: `buffer_drain` on an empty buffer is a harmless no-op          -/
/- ------------------------------------------------------------------ -/

/-- C10: on an empty buffer, `buffer_drain` returns `0` and changes
nothing (cursors and storage included), for every requested size, whereas
`buffer_remove` trips its non-emptiness assertion. -/
theorem c10_drain_empty (r : Buffer) (sz : Nat) (hh : r.head < U32)
    (he : rb_isempty r = true) :
    buffer_drain r sz = (r, 0) ∧ buffer_remove r sz = none := by
  have hht : r.head = r.tail := by
    simpa [rb_isempty, beq_iff_eq] using he
  have hlen : rb_len r = 0 := by
    simp only [rb_len, u32sub, U32]
    simp only [U32] at hh
    omega
  constructor
  · have hv : (if sz > rb_len r then rb_len r else sz) = 0 := by
      rw [hlen]; split <;> omega
    have hhead : (r.head + 0) % U32 = r.head := by
      simp only [U32] at hh ⊢
      omega
    simp only [buffer_drain, hv, hhead]
  · simp [buffer_remove, he]

/-- Witness for C10: draining `3` bytes from an empty buffer whose cursors
both sit at `7` is a no-op returning `0`, and `buffer_remove` fails. -/
theorem c10_drain_empty_witness :
    buffer_drain (Buffer.mk 4 7 7 fun _ => 9) 3 = (Buffer.mk 4 7 7 fun _ => 9, 0) ∧
    buffer_remove (Buffer.mk 4 7 7 fun _ => 9) 3 = none :=
  c10_drain_empty (Buffer.mk 4 7 7 fun _ => 9) 3 (by decide) (by decide)

/- ------------------------------------------------------------------ -/
/- Characterization of a successful `buffer_add`                       -/
/- ------------------------------------------------------------------ -/

/-- Successful append: return code `0`, `tail` advanced by `sz` (modulo
`2^32`), `head` and `size` untouched, the buffered length grown by exactly
`sz`, and byte `j` of the input stored at physical index
`(tail % size + j) % size`. -/
theorem buffer_add_spec (r : Buffer) (d : Nat → Nat) (sz : Nat) (hw : Wf r)
    (h : sz ≤ rb_remain r) :
    (buffer_add r d sz).1 = 0 ∧
    (buffer_add r d sz).2.size = r.size ∧
    (buffer_add r d sz).2.head = r.head ∧
    (buffer_add r d sz).2.tail = (r.tail + sz) % U32 ∧
    rb_len (buffer_add r d sz).2 = rb_len r + sz ∧
    ∀ j, j < sz → (buffer_add r d sz).2.buf ((r.tail % r.size + j) % r.size) = d j := by
  have hnot : ¬ sz > rb_remain r := by omega
  have hrem : rb_remain r = r.size - rb_len r := rb_remain_eq hw
  have hlenle := hw.len_le
  have hszle : sz ≤ r.size := by omega
  have hsize2 := hw.size_pos
  have hmask : r.tail &&& (r.size - 1) = r.tail % r.size := mask_eq hw r.tail
  have htpos : r.tail % r.size < r.size := Nat.mod_lt _ (by omega)
  refine ⟨?_, ?_, ?_, ?_, ?_, ?_⟩
  · simp only [buffer_add, if_neg hnot]
  · simp only [buffer_add, if_neg hnot]
  · simp only [buffer_add, if_neg hnot]
  · simp only [buffer_add, if_neg hnot]
  · have hh := hw.head_lt
    have ht := hw.tail_lt
    have hs : r.size ≤ 2147483648 := hw.size_le
    have hfit : sz + rb_len r ≤ r.size := by omega
    simp only [buffer_add, if_neg hnot]
    simp only [rb_len, u32sub, U32] at hfit ⊢
    simp only [U32] at hh ht
    omega
  · intro j hj
    simp only [buffer_add, if_neg hnot, hmask]
    rcases Nat.lt_or_ge j (min sz (r.size - r.tail % r.size)) with hji | hji
    · have hidx : (r.tail % r.size + j) % r.size = r.tail % r.size + j :=
        Nat.mod_eq_of_lt (by omega)
      rw [hidx, if_neg (by omega), if_pos ⟨by omega, by omega⟩]
      congr 1
      omega
    · have hieq : min sz (r.size - r.tail % r.size) = r.size - r.tail % r.size := by
        omega
      have hidx : (r.tail % r.size + j) % r.size = j - min sz (r.size - r.tail % r.size) := by
        have hsplit : r.tail % r.size + j = r.size + (j - min sz (r.size - r.tail % r.size)) := by
          omega
        rw [hsplit, Nat.add_mod_left, Nat.mod_eq_of_lt (by omega)]
      rw [hidx, if_pos (by omega)]
      congr 1
      omega

/- ------------------------------------------------------------------ -/
/- C4: append is all-or-nothing                                        -/
/- ------------------------------------------------------------------ -/

/-- C4: when `sz` exceeds the remaining space, `buffer_add` returns `-1`
and the buffer is exactly the caller's (cursors and storage identical);
otherwise it returns `0`, stores every one of the `sz` input bytes, and
advances the write cursor by exactly `sz` — there is no in-between. -/
theorem c4_add_all_or_nothing (r : Buffer) (d : Nat → Nat) (sz : Nat) (hw : Wf r) :
    (sz > rb_remain r → buffer_add r d sz = (-1, r)) ∧
    (sz ≤ rb_remain r →
      (buffer_add r d sz).1 = 0 ∧
      (buffer_add r d sz).2.head = r.head ∧
      (buffer_add r d sz).2.size = r.size ∧
      (buffer_add r d sz).2.tail = (r.tail + sz) % U32 ∧
      rb_len (buffer_add r d sz).2 = rb_len r + sz ∧
      ∀ j, j < sz → (buffer_add r d sz).2.buf ((r.tail % r.size + j) % r.size) = d j) := by
  constructor
  · intro h
    simp only [buffer_add, if_pos h]
  · intro h
    obtain ⟨h0, hsz, hhd, htl, hln, hby⟩ := buffer_add_spec r d sz hw h
    exact ⟨h0, hhd, hsz, htl, hln, hby⟩

/-- Witness for C4 at a concrete wrap-around append: capacity `4`,
cursors at `3`, three bytes appended; and a rejected oversized append. -/
theorem c4_add_all_or_nothing_witness :
    buffer_add (Buffer.mk 4 3 3 fun _ => 0) (fun j => j + 10) 5 =
      (-1, Buffer.mk 4 3 3 fun _ => 0) ∧
    (buffer_add (Buffer.mk 4 3 3 fun _ => 0) (fun j => j + 10) 3).2.tail = 6 ∧
    rb_len (buffer_add (Buffer.mk 4 3 3 fun _ => 0) (fun j => j + 10) 3).2 = 3 ∧
    (buffer_add (Buffer.mk 4 3 3 fun _ => 0) (fun j => j + 10) 3).2.buf ((3 % 4 + 2) % 4) = 12 := by
  have hw : Wf (Buffer.mk 4 3 3 fun _ => 0) :=
    ⟨⟨2, by norm_num⟩, by decide, by decide, by decide⟩
  refine ⟨(c4_add_all_or_nothing (Buffer.mk 4 3 3 fun _ => 0) (fun j => j + 10) 5 hw).1
      (by decide), ?_, ?_, ?_⟩
  · exact ((c4_add_all_or_nothing (Buffer.mk 4 3 3 fun _ => 0) (fun j => j + 10) 3 hw).2
      (by decide)).2.2.2.1
  · exact ((c4_add_all_or_nothing (Buffer.mk 4 3 3 fun _ => 0) (fun j => j + 10) 3 hw).2
      (by decide)).2.2.2.2.1
  · exact ((c4_add_all_or_nothing (Buffer.mk 4 3 3 fun _ => 0) (fun j => j + 10) 3 hw).2
      (by decide)).2.2.2.2.2 2 (by norm_num)

/- ------------------------------------------------------------------ -/
/- Characterization of `buffer_remove` on a non-empty buffer           -/
/- ------------------------------------------------------------------ -/

/-- Non-empty remove: the clamped count is `min sz (rb_len r)`, the bytes
copied out are exactly the buffered bytes at physical indices
`(head % size + j) % size` in logical order, and `head` advances by the
clamped count. -/
theorem buffer_remove_spec (r : Buffer) (sz : Nat) (hw : Wf r)
    (hne : r.head ≠ r.tail) :
    buffer_remove r sz =
      some ({ r with head := (r.head + min sz (rb_len r)) % U32 },
        (List.range (min sz (rb_len r))).map
          (fun j => r.buf ((r.head % r.size + j) % r.size)),
        min sz (rb_len r)) := by
  have hempty : rb_isempty r = false := by
    simp [rb_isempty, hne]
  have hmask : r.head &&& (r.size - 1) = r.head % r.size := mask_eq hw r.head
  have hsize2 := hw.size_pos
  have hhpos : r.head % r.size < r.size := Nat.mod_lt _ (by omega)
  have hlenle := hw.len_le
  simp only [buffer_remove, hempty, Bool.false_eq_true, if_neg, hmask,
    rb_len]
  refine congrArg some ?_
  refine congrArg (Prod.mk _) (congrArg (fun l => Prod.mk l _) ?_)
  -- the two `memcpy` runs concatenate to the single logical byte range
  have hszlen : min sz (u32sub r.tail r.head) ≤ r.size := by
    have : u32sub r.tail r.head ≤ r.size := hlenle
    omega
  have hsplit : min sz (u32sub r.tail r.head) =
      min (min sz (u32sub r.tail r.head)) (r.size - r.head % r.size) +
      (min sz (u32sub r.tail r.head) -
        min (min sz (u32sub r.tail r.head)) (r.size - r.head % r.size)) := by
    omega
  rw [show (List.range (min sz (u32sub r.tail r.head))).map
        (fun j => r.buf ((r.head % r.size + j) % r.size)) =
      (List.range
        (min (min sz (u32sub r.tail r.head)) (r.size - r.head % r.size) +
         (min sz (u32sub r.tail r.head) -
          min (min sz (u32sub r.tail r.head)) (r.size - r.head % r.size)))).map
        (fun j => r.buf ((r.head % r.size + j) % r.size)) from by rw [← hsplit]]
  rw [List.range_add, List.map_append, List.map_map]
  refine congrArg₂ (· ++ ·) ?_ ?_
  · refine List.map_congr_left ?_
    intro j hj
    rw [List.mem_range] at hj
    have hred : (r.head % r.size + j) % r.size = r.head % r.size + j :=
      Nat.mod_eq_of_lt (by omega)
    rw [hred]
  · refine List.map_congr_left ?_
    intro j hj
    rw [List.mem_range] at hj
    have hwrap : min (min sz (u32sub r.tail r.head)) (r.size - r.head % r.size) =
        r.size - r.head % r.size := by omega
    simp only [Function.comp]
    have hshift : r.head % r.size +
        (min (min sz (u32sub r.tail r.head)) (r.size - r.head % r.size) + j) =
        r.size + j := by omega
    rw [hshift, Nat.add_mod_left]
    have hred : j % r.size = j := Nat.mod_eq_of_lt (by omega)
    rw [hred]

/- ------------------------------------------------------------------ -/
/- C3: append/remove round trip                                        -/
/- ------------------------------------------------------------------ -/

/-- C3 counterexample: from a reachable non-empty state (capacity `2`
holding the byte `9`, one byte of space remaining), appending `5` and then
removing one byte yields the older byte `9`, not the appended `5` — the
FIFO discipline makes the claim fail for non-empty starting states. -/
theorem c3_counterexample :
    rb_remain (buffer_add (buffer_new 2) (fun _ => 9) 1).2 = 1 ∧
    ((buffer_remove
        (buffer_add (buffer_add (buffer_new 2) (fun _ => 9) 1).2 (fun _ => 5) 1).2
        1).map fun p => p.2.1) = some [9] ∧
    [9] ≠ [5] := by
  refine ⟨by decide, by decide, by decide⟩

/-- C3 (amended): from any well-formed **empty** state (`head = tail`,
arbitrary physical offset), appending `1 ≤ s ≤ capacity` bytes and
immediately removing `s` succeeds and hands back exactly the appended
bytes in order, including when they straddle the physical end of
storage. -/
theorem c3_roundtrip (r : Buffer) (d : Nat → Nat) (s : Nat) (hw : Wf r)
    (hempty : r.head = r.tail) (h1 : 1 ≤ s) (hs : s ≤ r.size) :
    (buffer_add r d s).1 = 0 ∧
    ∃ r₂, buffer_remove (buffer_add r d s).2 s =
      some (r₂, (List.range s).map d, s) := by
  have hlen0 : rb_len r = 0 := by
    have ht := hw.tail_lt
    simp only [rb_len, u32sub, hempty, U32]
    simp only [U32] at ht
    omega
  have hsle : s ≤ rb_remain r := by
    rw [rb_remain_eq hw, hlen0]
    omega
  obtain ⟨h0, hsz, hhd, htl, hln, hby⟩ := buffer_add_spec r d s hw hsle
  set r₁ := (buffer_add r d s).2 with hr₁
  have ht₁ : r₁.tail < U32 := by
    rw [htl]
    exact Nat.mod_lt _ (by norm_num [U32])
  have hw₁ : Wf r₁ := by
    refine ⟨?_, ?_, ht₁, ?_⟩
    · rw [hsz]; exact hw.size_pow
    · rw [hhd]; exact hw.head_lt
    · rw [hln, hlen0, hsz]; omega
  have hne₁ : r₁.head ≠ r₁.tail := by
    intro heq
    have h0' : rb_len r₁ = 0 := by
      simp only [rb_len, u32sub, heq, U32]
      simp only [U32] at ht₁
      omega
    rw [hln, hlen0] at h0'
    omega
  have hmin : min s (rb_len r₁) = s := by
    rw [hln, hlen0]
    omega
  refine ⟨h0, { r₁ with head := (r₁.head + s) % U32 }, ?_⟩
  rw [buffer_remove_spec r₁ s hw₁ hne₁, hmin]
  refine congrArg some (congrArg (Prod.mk _) (congrArg (fun l => Prod.mk l s) ?_))
  refine List.map_congr_left ?_
  intro j hj
  rw [List.mem_range] at hj
  rw [hhd, hsz, hempty]
  exact hby j hj

/-- Witness for C3: the spec's own test — capacity `8`, cursors advanced
to `6`, append `4` bytes (which wraps) and remove them. -/
theorem c3_roundtrip_witness :
    (buffer_add (Buffer.mk 8 6 6 fun _ => 0) (fun j => j + 1) 4).1 = 0 ∧
    ∃ r₂, buffer_remove (buffer_add (Buffer.mk 8 6 6 fun _ => 0) (fun j => j + 1) 4).2 4 =
      some (r₂, (List.range 4).map (fun j => j + 1), 4) :=
  c3_roundtrip (Buffer.mk 8 6 6 fun _ => 0) (fun j => j + 1) 4
    ⟨⟨3, by norm_num⟩, by decide, by decide, by decide⟩ rfl (by norm_num) (by norm_num)

/- ------------------------------------------------------------------ -/
/- C5: the occupancy invariant is preserved by every operation         -/
/- ------------------------------------------------------------------ -/

/-- C5: `0 ≤ len ≤ capacity` (with `len = tail - head` in unsigned
arithmetic) holds for a fresh buffer and is preserved by `buffer_add`,
`buffer_remove`, `buffer_drain` and `buffer_write_atmost`
(`buffer_search` does not mutate the buffer at all in the model, mirroring
the C code, which never writes through `r`). -/
theorem c5_invariant (r : Buffer) (hw : Wf r) (n sz : Nat) (d : Nat → Nat) :
    rb_len (buffer_new n) ≤ (buffer_new n).size ∧
    rb_len (buffer_add r d sz).2 ≤ (buffer_add r d sz).2.size ∧
    (∀ r' out cnt, buffer_remove r sz = some (r', out, cnt) →
      rb_len r' ≤ r'.size) ∧
    rb_len (buffer_drain r sz).1 ≤ (buffer_drain r sz).1.size ∧
    rb_len (buffer_write_atmost r).1 ≤ (buffer_write_atmost r).1.size := by
  have hh := hw.head_lt
  have ht := hw.tail_lt
  have hl := hw.len_le
  have hsb := hw.size_le
  refine ⟨?_, ?_, ?_, ?_, ?_⟩
  · simp [rb_len, buffer_new, u32sub, U32]
  · by_cases hcap : sz > rb_remain r
    · simp only [buffer_add, if_pos hcap]
      exact hl
    · obtain ⟨-, hsz, -, -, hln, -⟩ :=
        buffer_add_spec r d sz hw (by omega)
      rw [hln, hsz]
      have hrem := rb_remain_eq hw
      omega
  · intro r' out cnt heq
    by_cases hne : r.head = r.tail
    · rw [show buffer_remove r sz = none by simp [buffer_remove, rb_isempty, hne]] at heq
      exact absurd heq (by simp)
    · rw [buffer_remove_spec r sz hw hne] at heq
      simp only [Option.some.injEq, Prod.mk.injEq] at heq
      rw [← heq.1]
      simp only [rb_len, u32sub, U32] at hl ⊢
      simp only [U32] at hh ht
      omega
  · simp only [buffer_drain, rb_len, u32sub, U32] at hl ⊢
    simp only [U32] at hh ht
    split_ifs with hgt <;> omega
  · simp only [buffer_write_atmost]
    split_ifs with hlt
    · exact hl
    · exact hl

/-- Witness for C5 at a concrete wrapped, well-formed buffer. -/
theorem c5_invariant_witness :
    rb_len (buffer_new 5) ≤ (buffer_new 5).size ∧
    rb_len (buffer_add (Buffer.mk 4 5 3 fun _ => 1) (fun _ => 2) 1).2 ≤
      (buffer_add (Buffer.mk 4 5 3 fun _ => 1) (fun _ => 2) 1).2.size ∧
    rb_len (buffer_drain (Buffer.mk 4 5 3 fun _ => 1) 9).1 ≤
      (buffer_drain (Buffer.mk 4 5 3 fun _ => 1) 9).1.size :=
  ⟨(c5_invariant (Buffer.mk 4 5 3 fun _ => 1)
      ⟨⟨2, by norm_num⟩, by decide, by decide, by decide⟩ 5 1 (fun _ => 2)).1,
   (c5_invariant (Buffer.mk 4 5 3 fun _ => 1)
      ⟨⟨2, by norm_num⟩, by decide, by decide, by decide⟩ 5 1 (fun _ => 2)).2.1,
   (c5_invariant (Buffer.mk 4 5 3 fun _ => 1)
      ⟨⟨2, by norm_num⟩, by decide, by decide, by decide⟩ 5 9 (fun _ => 2)).2.2.2.1⟩

/- ------------------------------------------------------------------ -/
/- C1: the scan-bound underflow in `buffer_search`                     -/
/- ------------------------------------------------------------------ -/

/-- C1 failing input: an empty buffer (capacity `4`, both cursors `0`)
whose storage still holds stale bytes `88 89 90`, searched for that very
three-byte separator.  `separator_length (3) > len (0)`, yet the loop
bound `rb_len - seplen` underflows to `2^32 - 3`, the scan loop runs, and
the stale storage makes it return `3` instead of the claimed `0`. -/
theorem c1_underflow_scan :
    rb_len (Buffer.mk 4 0 0 fun idx => [88, 89, 90, 0].getD idx 0) = 0 ∧
    u32sub (rb_len (Buffer.mk 4 0 0 fun idx => [88, 89, 90, 0].getD idx 0)) 3 =
      4294967293 ∧
    buffer_search (Buffer.mk 4 0 0 fun idx => [88, 89, 90, 0].getD idx 0)
      (fun j => [88, 89, 90].getD j 0) 3 = some 3 :=
  ⟨by decide, by decide, by decide⟩

/- ------------------------------------------------------------------ -/
/- C2: wrap-crossing prefix mismatch aborts the whole search           -/
/- ------------------------------------------------------------------ -/

/-- C2 failing input: capacity `4`, `head = 3`, `tail = 7`, storage
`65 66 67 88` (logical contents `88 65 66 67`), separator `65 66`, which
occurs at logical offset `1`.  The candidate at offset `0` crosses the
physical end and its one-byte prefix (`88` vs `65`) mismatches; the code
executes `return 0` instead of advancing to offset `1`, so the search
misses the match it should report as `1 + 2 = 3`. -/
theorem c2_wrap_prefix_abort :
    rb_len (Buffer.mk 4 7 3 fun idx => [65, 66, 67, 88].getD idx 0) = 4 ∧
    (Buffer.mk 4 7 3 fun idx => [65, 66, 67, 88].getD idx 0).buf ((3 + 1) % 4) = 65 ∧
    (Buffer.mk 4 7 3 fun idx => [65, 66, 67, 88].getD idx 0).buf ((3 + 2) % 4) = 66 ∧
    buffer_search (Buffer.mk 4 7 3 fun idx => [65, 66, 67, 88].getD idx 0)
      (fun j => [65, 66].getD j 0) 2 = some 0 :=
  ⟨by decide, by decide, by decide, by decide⟩

/- ------------------------------------------------------------------ -/
/- C6: first-match behaviour of `buffer_search` on contiguous data     -/
/- ------------------------------------------------------------------ -/

theorem memcmpEq_iff (a : Nat → Nat) (apos : Nat) (b : Nat → Nat) (bpos n : Nat) :
    memcmpEq a apos b bpos n = true ↔ ∀ j, j < n → a (apos + j) = b (bpos + j) := by
  simp [memcmpEq, List.all_eq_true, List.mem_range, beq_iff_eq]

/-- The separator occurs at logical offset `i` of the buffered data, read
at the physical indices the non-wrapping scan inspects. -/
def matchAt (r : Buffer) (sep : Nat → Nat) (seplen i : Nat) : Prop :=
  ∀ j, j < seplen → r.buf (r.head % r.size + i + j) = sep j

instance (r : Buffer) (sep : Nat → Nat) (seplen i : Nat) :
    Decidable (matchAt r sep seplen i) := by
  unfold matchAt
  infer_instance

/-- Physical position scanned for candidate offset `i`, when the whole
scanned region is physically contiguous. -/
theorem search_pos_eq {r : Buffer} {seplen : Nat} (hw : Wf r)
    (hs1 : 0 < seplen) (hle : seplen ≤ rb_len r)
    (hnw : r.head % r.size + rb_len r ≤ r.size)
    {i : Nat} (hi : i ≤ rb_len r - seplen) :
    ((r.head + i) % U32) &&& (r.size - 1) = r.head % r.size + i := by
  have hsize2 := hw.size_pos
  have hlen := hw.len_le
  have hi_lt : r.head % r.size + i < r.size := by omega
  have hstep : (r.head + i) % r.size = (r.head % r.size + i) % r.size := by
    conv_lhs => rw [Nat.add_mod]
    rw [Nat.mod_eq_of_lt (show i < r.size by omega)]
  rw [mask_eq hw, mod_U32_mod_size hw, hstep, Nat.mod_eq_of_lt hi_lt]

/-- Scan offsets that fit in `uint32_t` compare as themselves. -/
theorem search_idx_small {r : Buffer} {seplen : Nat} (hw : Wf r)
    {i : Nat} (hi : i ≤ rb_len r - seplen + 1) : i % U32 = i := by
  have := hw.size_le
  have := hw.len_le
  apply Nat.mod_eq_of_lt
  simp only [U32]
  omega

/-- When no candidate offset from `i` up to the bound matches, the scan
loop falls off the end and returns `0`. -/
theorem searchLoop_no_match (r : Buffer) (sep : Nat → Nat) (seplen : Nat)
    (hw : Wf r) (hs1 : 0 < seplen) (hle : seplen ≤ rb_len r)
    (hnw : r.head % r.size + rb_len r ≤ r.size) :
    ∀ fuel i, i ≤ rb_len r - seplen + 1 →
      rb_len r - seplen + 2 - i ≤ fuel →
      (∀ m, i ≤ m → m ≤ rb_len r - seplen → ¬ matchAt r sep seplen m) →
      searchLoop r sep seplen (rb_len r - seplen) fuel i = some 0 := by
  intro fuel
  induction fuel with
  | zero =>
    intro i hi hfuel hnom
    omega
  | succ fuel ih =>
    intro i hi hfuel hnom
    simp only [searchLoop]
    by_cases hgt : i % U32 > rb_len r - seplen
    · rw [if_pos hgt]
    · rw [if_neg hgt]
      rw [search_idx_small hw hi] at hgt
      have hile : i ≤ rb_len r - seplen := by omega
      rw [search_pos_eq hw hs1 hle hnw hile]
      have hnwrap : ¬ (r.head % r.size + i + seplen > r.size) := by
        have := hw.len_le
        omega
      rw [if_neg hnwrap]
      have hmm : memcmpEq r.buf (r.head % r.size + i) sep 0 seplen = false := by
        refine Bool.eq_false_iff.mpr fun htr => ?_
        refine hnom i (Nat.le_refl i) hile fun j hj => ?_
        have := (memcmpEq_iff r.buf (r.head % r.size + i) sep 0 seplen).mp htr j hj
        rwa [Nat.zero_add] at this
      rw [if_neg (by rw [hmm]; exact Bool.false_ne_true)]
      exact ih (i + 1) (by omega) (by omega) fun m hm1 hm2 => hnom m (by omega) hm2

/-- When the first matching candidate at or beyond `i` sits at offset `m`
within the bound, the scan loop returns `m + seplen`. -/
theorem searchLoop_found (r : Buffer) (sep : Nat → Nat) (seplen : Nat)
    (hw : Wf r) (hs1 : 0 < seplen) (hle : seplen ≤ rb_len r)
    (hnw : r.head % r.size + rb_len r ≤ r.size) (m : Nat)
    (hm : m ≤ rb_len r - seplen) (hmat : matchAt r sep seplen m) :
    ∀ fuel i, i ≤ m → (∀ j, i ≤ j → j < m → ¬ matchAt r sep seplen j) →
      m + 1 - i ≤ fuel →
      searchLoop r sep seplen (rb_len r - seplen) fuel i = some (m + seplen) := by
  intro fuel
  induction fuel with
  | zero =>
    intro i hi hpre hfuel
    omega
  | succ fuel ih =>
    intro i hi hpre hfuel
    simp only [searchLoop]
    have hile : i ≤ rb_len r - seplen := by omega
    rw [if_neg (by
      rw [search_idx_small hw (show i ≤ rb_len r - seplen + 1 by omega)]
      omega)]
    rw [search_pos_eq hw hs1 hle hnw hile]
    have hnwrap : ¬ (r.head % r.size + i + seplen > r.size) := by
      have := hw.len_le
      omega
    rw [if_neg hnwrap]
    by_cases him : i = m
    · subst him
      rw [if_pos ((memcmpEq_iff r.buf (r.head % r.size + i) sep 0 seplen).mpr
        fun j hj => by rw [Nat.zero_add]; exact hmat j hj)]
    · have hmm : memcmpEq r.buf (r.head % r.size + i) sep 0 seplen = false := by
        refine Bool.eq_false_iff.mpr fun htr => ?_
        refine hpre i (Nat.le_refl i) (by omega) fun j hj => ?_
        have := (memcmpEq_iff r.buf (r.head % r.size + i) sep 0 seplen).mp htr j hj
        rwa [Nat.zero_add] at this
      rw [if_neg (by rw [hmm]; exact Bool.false_ne_true)]
      exact ih (i + 1) (by omega) (fun j hj1 hj2 => hpre j (by omega) hj2) (by omega)

/-- C6 counterexample: for a capacity-16 buffer holding exactly
`"abcXYZdef"` from physical index `0`, `search("XYZ", 3)` returns `6`
(match offset `3` plus length `3`), not the claimed `7`. -/
theorem c6_counterexample :
    buffer_search
      (Buffer.mk 16 9 0 fun idx => [97, 98, 99, 88, 89, 90, 100, 101, 102].getD idx 0)
      (fun j => [88, 89, 90].getD j 0) 3 ≠ some 7 ∧
    buffer_search
      (Buffer.mk 16 9 0 fun idx => [97, 98, 99, 88, 89, 90, 100, 101, 102].getD idx 0)
      (fun j => [88, 89, 90].getD j 0) 3 = some 6 :=
  ⟨by decide, by decide⟩

/-- C6 (amended): for a non-empty separator no longer than the buffered
data, and provided no scanned candidate crosses the physical end of
storage (the scanned region `[head % size, head % size + len)` is
contiguous), `buffer_search` returns `m + seplen` for the smallest
matching logical offset `m` — a value always `≥ seplen > 0` — and `0`
when no offset matches; for the buffer holding `"abcXYZdef"` this gives
`search("XYZ", 3) = 6` (not `7`) and `search("ZZZ", 3) = 0`. -/
theorem c6_search_first_match (r : Buffer) (sep : Nat → Nat) (seplen : Nat)
    (hw : Wf r) (hs1 : 0 < seplen) (hle : seplen ≤ rb_len r)
    (hnw : r.head % r.size + rb_len r ≤ r.size) :
    ((∀ m, m ≤ rb_len r - seplen → ¬ matchAt r sep seplen m) →
      buffer_search r sep seplen = some 0) ∧
    (∀ m, m ≤ rb_len r - seplen → matchAt r sep seplen m →
      (∀ j, j < m → ¬ matchAt r sep seplen j) →
      buffer_search r sep seplen = some (m + seplen)) := by
  have hbound : u32sub (rb_len r) seplen = rb_len r - seplen := by
    have h1 := hw.len_le
    have h2 := hw.size_le
    simp only [u32sub, U32]
    omega
  have hfuel : rb_len r - seplen + 2 ≤ U32 := by
    have h1 := hw.len_le
    have h2 := hw.size_le
    simp only [U32]
    omega
  constructor
  · intro hno
    rw [buffer_search, hbound]
    exact searchLoop_no_match r sep seplen hw hs1 hle hnw U32 0 (by omega)
      (by omega) fun m _ hm => hno m hm
  · intro m hm hmat hpre
    rw [buffer_search, hbound]
    exact searchLoop_found r sep seplen hw hs1 hle hnw m hm hmat U32 0
      (by omega) (fun j _ hj => hpre j hj) (by omega)

/-- Witness for C6 on the spec's `"abcXYZdef"` example: first match at
offset `3` gives `6`; the absent separator `"ZZZ"` gives `0`. -/
theorem c6_search_first_match_witness :
    buffer_search
      (Buffer.mk 16 9 0 fun idx => [97, 98, 99, 88, 89, 90, 100, 101, 102].getD idx 0)
      (fun j => [88, 89, 90].getD j 0) 3 = some 6 ∧
    buffer_search
      (Buffer.mk 16 9 0 fun idx => [97, 98, 99, 88, 89, 90, 100, 101, 102].getD idx 0)
      (fun _ => 90) 3 = some 0 :=
  ⟨(c6_search_first_match
      (Buffer.mk 16 9 0 fun idx => [97, 98, 99, 88, 89, 90, 100, 101, 102].getD idx 0)
      (fun j => [88, 89, 90].getD j 0) 3
      ⟨⟨4, by norm_num⟩, by decide, by decide, by decide⟩
      (by decide) (by decide) (by decide)).2 3 (by decide) (by decide) (by decide),
   (c6_search_first_match
      (Buffer.mk 16 9 0 fun idx => [97, 98, 99, 88, 89, 90, 100, 101, 102].getD idx 0)
      (fun _ => 90) 3
      ⟨⟨4, by norm_num⟩, by decide, by decide, by decide⟩
      (by decide) (by decide) (by decide)).1 (by decide)⟩

end RingBuffer
